import Mathlib

/-!
Shallow embedding of the curriculum graph-analysis engine
(`unificado/graph_insights.py`) and verification of its specification.

The relational store is modelled as an in-memory `DB` record holding the
same rows the SQLAlchemy queries read:
  * the discipline catalog `(id, name)`,
  * the prerequisite relation rows `(discipline_id, prerequisite_id)`
    (nullable columns, hence `Option Int`),
  * the student-profile table projected to `(user_id, profile_id)`,
  * the `students_disciplines` rows `(student_id, discipline_id, status)`.

`networkx.DiGraph` is modelled as insertion-ordered node/edge lists with
set semantics (no duplicate node ids, no duplicate edges), which is how
the builder uses it.  `nx.topological_sort` is modelled by Kahn's
algorithm (repeatedly pick a node with no incoming edge among the
remaining ones); the particular tie-break among simultaneously available
nodes is library-internal and not load-bearing for any property below.
`nx.simple_cycles` is modelled by exhaustive enumeration of elementary
cycles, one canonical rotation (minimal head) per cycle.
`nx.spring_layout` is floating-point and external to the repository; the
layout is therefore a parameter of the progress-visualization function.
-/

/-- The rows of the relational store that `graph_insights` reads. -/
structure DB where
  disciplines : List (Int × String)
  prereqRows : List (Option Int × Option Int)
  studentProfiles : List (Int × Int)
  studentDisciplines : List (Int × Int × String)
deriving DecidableEq

/-- Model of `networkx.DiGraph` as used by the builder: insertion-ordered
nodes carrying their `name` attribute, and directed edges. -/
structure DiGraph where
  nodes : List (Int × String)
  edges : List (Int × Int)
deriving DecidableEq

/-- The node identifiers of the graph, in insertion order. -/
def DiGraph.nodeIds (G : DiGraph) : List Int :=
  G.nodes.map Prod.fst

/-- `G.add_node(i, name=s)`: updates the attribute if the node exists,
otherwise appends a fresh node. -/
def DiGraph.addNode (G : DiGraph) (i : Int) (s : String) : DiGraph :=
  if i ∈ G.nodeIds then
    { G with nodes := G.nodes.map (fun p => if p.1 = i then (i, s) else p) }
  else
    { G with nodes := G.nodes ++ [(i, s)] }

/-- `G.add_edge(u, v)` for endpoints already present (the builder guards
every call with `has_node` checks); duplicate edges are ignored. -/
def DiGraph.addEdge (G : DiGraph) (u v : Int) : DiGraph :=
  if (u, v) ∈ G.edges then G else { G with edges := G.edges ++ [(u, v)] }

/-- The `if not G.has_node(i): G.add_node(i, name=str(i))` idiom of the
builder: materialize a missing endpoint with its stringified id. -/
def ensureNode (G : DiGraph) (i : Int) : DiGraph :=
  if i ∈ G.nodeIds then G else G.addNode i (toString i)

/-- One iteration of the prerequisite-row loop of `build_prereq_graph`:
rows with a null id are skipped, otherwise both endpoints are
materialized and the edge prerequisite → discipline is added. -/
def addPrereqRow (G : DiGraph) (r : Option Int × Option Int) : DiGraph :=
  match r with
  | (some discId, some prereqId) =>
      ((ensureNode (ensureNode G prereqId) discId).addEdge prereqId discId)
  | _ => G

/-- `build_prereq_graph`: load the catalog as nodes, then add one edge
per non-null prerequisite row. -/
def build_prereq_graph (db : DB) : DiGraph :=
  let G0 := db.disciplines.foldl (fun G p => G.addNode p.1 p.2) ⟨[], []⟩
  db.prereqRows.foldl addPrereqRow G0

/-- `_get_student_profile_id`: first profile row matching the user id. -/
def getStudentProfileId (db : DB) (userId : Int) : Option Int :=
  (db.studentProfiles.find? (fun r => r.1 == userId)).map Prod.snd

/-- The set (as a list) of disciplines the student `sp` has completed:
rows of `students_disciplines` with status `'concluido'`. -/
def concludedOf (db : DB) (sp : Int) : List Int :=
  (db.studentDisciplines.filter
    (fun r => r.1 == sp && r.2.2 == "concluido")).map (fun r => r.2.1)

/-- `G.predecessors(v)`: sources of the in-edges of `v`. -/
def predecessorsOf (G : DiGraph) (v : Int) : List Int :=
  (G.edges.filter (fun e => e.2 == v)).map Prod.fst

/-- `G.subgraph(s)`: the induced subgraph on the node subset `s` (edges
are kept when both endpoints are nodes of the subgraph). -/
def subgraphOn (G : DiGraph) (s : List Int) : DiGraph :=
  ⟨G.nodes.filter (fun p => decide (p.1 ∈ s)),
   G.edges.filter (fun e =>
     decide (e.1 ∈ (G.nodes.filter (fun p => decide (p.1 ∈ s))).map Prod.fst) &&
     decide (e.2 ∈ (G.nodes.filter (fun p => decide (p.1 ∈ s))).map Prod.fst))⟩

/-- `G.remove_nodes_from(s)`: drop the listed nodes and their incident
edges. -/
def removeNodes (G : DiGraph) (s : List Int) : DiGraph :=
  ⟨G.nodes.filter (fun p => !decide (p.1 ∈ s)),
   G.edges.filter (fun e => !decide (e.1 ∈ s) && !decide (e.2 ∈ s))⟩

/-- The edge relation of a graph, as a binary predicate. -/
def EdgeRel (G : DiGraph) (u v : Int) : Prop :=
  (u, v) ∈ G.edges

/-- The graph contains a (not necessarily simple) directed cycle. -/
def HasCycle (G : DiGraph) : Prop :=
  ∃ v, Relation.TransGen (EdgeRel G) v v

/-- Well-formedness maintained by the builder: node ids are unique, edges
are unique, and every edge endpoint is a node. -/
def WF (G : DiGraph) : Prop :=
  G.nodeIds.Nodup ∧ G.edges.Nodup ∧
    ∀ e ∈ G.edges, e.1 ∈ G.nodeIds ∧ e.2 ∈ G.nodeIds

/-- The `name` attribute of node `i`, when present. -/
def lookupName (G : DiGraph) (i : Int) : Option String :=
  (G.nodes.find? (fun p => decide (p.1 = i))).map Prod.snd

/-- `v` has no predecessor among `rem` (the pick condition of Kahn's
algorithm). -/
def noPredWithin (G : DiGraph) (rem : List Int) (v : Int) : Bool :=
  rem.all (fun u => !decide ((u, v) ∈ G.edges))

/-- Kahn's algorithm main loop: repeatedly extract a node of the
remaining set that has no incoming edge from the remaining set; `none`
signals `NetworkXUnfeasible` (a cycle). -/
def kahnAux (G : DiGraph) : Nat → List Int → Option (List Int)
  | 0, rem => if rem.isEmpty then some [] else none
  | fuel + 1, rem =>
    match rem.find? (noPredWithin G rem) with
    | none => if rem.isEmpty then some [] else none
    | some v => (kahnAux G fuel (rem.erase v)).map (v :: ·)

/-- `nx.topological_sort(G)`: `some` linear order on all nodes with every
edge pointing forward, or `none` when the graph has a cycle. -/
def topologicalSort (G : DiGraph) : Option (List Int) :=
  kahnAux G G.nodeIds.length G.nodeIds

/-- The cyclically consecutive pairs of a node list, e.g.
`cycEdges [a, b, c] = [(a,b), (b,c), (c,a)]`. -/
def cycEdges (c : List Int) : List (Int × Int) :=
  c.zip (c.rotate 1)

/-- `c` is an elementary (simple) cycle of `G`: a nonempty duplicate-free
node list all of whose cyclically consecutive pairs are edges. -/
def IsCycleOf (G : DiGraph) (c : List Int) : Prop :=
  c ≠ [] ∧ c.Nodup ∧ ∀ e ∈ cycEdges c, e ∈ G.edges

instance (G : DiGraph) (c : List Int) : Decidable (IsCycleOf G c) := by
  unfold IsCycleOf; infer_instance

/-- The canonical rotation of a cycle: its head is a minimum. -/
def minFirst (c : List Int) : Bool :=
  match c.head? with
  | none => false
  | some h => c.all (fun x => decide (h ≤ x))

/-- All duplicate-free lists of length at most `fuel` drawn from `pool`:
the candidate node sequences for elementary cycles. -/
def pickLists : Nat → List Int → List (List Int)
  | 0, _ => [[]]
  | fuel + 1, pool =>
    [] :: pool.flatMap (fun x => (pickLists fuel (pool.erase x)).map (x :: ·))

/-- `nx.simple_cycles(G)`: every elementary cycle, each listed once in
its canonical (minimum-first) rotation. -/
def simple_cycles (G : DiGraph) : List (List Int) :=
  (pickLists G.nodeIds.length G.nodeIds).filter
    (fun c => decide (IsCycleOf G c) && minFirst c)

/-- `detect_cycles`: empty when a topological order exists, otherwise all
elementary cycles. -/
def detect_cycles (db : DB) : List (List Int) :=
  let G := build_prereq_graph db
  match topologicalSort G with
  | some _ => []
  | none => simple_cycles G

/-- One entry of `recommend_disciplines_for_student`:
`(id, name, prereq ids)`. -/
def RecEntry : Type := Int × String × List Int

instance : DecidableEq RecEntry := by unfold RecEntry; infer_instance

/-- Python's stable ascending sort key `len(prereqs)`. -/
def fewerPrereqs (a b : RecEntry) : Prop :=
  a.2.2.length ≤ b.2.2.length

instance : DecidableRel fewerPrereqs := fun a b => by
  unfold fewerPrereqs; infer_instance

instance : IsTotal RecEntry fewerPrereqs :=
  ⟨fun a b => Nat.le_total a.2.2.length b.2.2.length⟩

instance : IsTrans RecEntry fewerPrereqs :=
  ⟨fun _ _ _ h h' => Nat.le_trans h h'⟩

/-- `recommend_disciplines_for_student`: disciplines not yet concluded
whose predecessors are all concluded, sorted by prerequisite count. -/
def recommend_disciplines_for_student (db : DB) (userId : Int) :
    List RecEntry :=
  match getStudentProfileId db userId with
  | none => []
  | some sp =>
    let concluded := concludedOf db sp
    let G := build_prereq_graph db
    let recs : List RecEntry := G.nodes.filterMap (fun p =>
      if p.1 ∈ concluded then none
      else
        let prereqs := predecessorsOf G p.1
        if prereqs.all (fun q => decide (q ∈ concluded)) then
          some (p.1, p.2, prereqs)
        else none)
    recs.insertionSort fewerPrereqs

/-- The induced subgraph over the required set with the student's
concluded disciplines removed (`sub_dg` of `calculate_graduation_path`). -/
def gradSubgraph (db : DB) (sp : Int) (requiredIds : List Int) : DiGraph :=
  removeNodes (subgraphOn (build_prereq_graph db) requiredIds)
    (concludedOf db sp)

/-- `calculate_graduation_path`: topologically sort the induced filtered
subgraph and keep the required-and-not-concluded nodes; an infeasible
(cyclic) subgraph or an unknown student yields `[]`. -/
def calculate_graduation_path (db : DB) (userId : Int)
    (requiredIds : List Int) : List Int :=
  match getStudentProfileId db userId with
  | none => []
  | some sp =>
    let concluded := concludedOf db sp
    let remaining := requiredIds.filter (fun i => !decide (i ∈ concluded))
    match topologicalSort (gradSubgraph db sp requiredIds) with
    | some orderNodes => orderNodes.filter (fun n => decide (n ∈ remaining))
    | none => []

/-- Forward-reachability saturation used for `nx.descendants`. -/
def reachAux (G : DiGraph) : Nat → List Int → List Int
  | 0, acc => acc
  | n + 1, acc =>
    let nxt := ((G.edges.filter
      (fun e => decide (e.1 ∈ acc) && !decide (e.2 ∈ acc))).map
        Prod.snd).dedup
    if nxt.isEmpty then acc else reachAux G n (acc ++ nxt)

/-- `nx.descendants(G, v)`: nodes reachable from `v`, excluding `v`. -/
def descendantsOf (G : DiGraph) (v : Int) : List Int :=
  (reachAux G G.nodes.length [v]).erase v

/-- All simple paths from `u` to `t` avoiding `visited`, as node lists. -/
def simplePathsAux (G : DiGraph) : Nat → Int → Int → List Int →
    List (List Int)
  | 0, u, t, _ => if u = t then [[u]] else []
  | n + 1, u, t, visited =>
    if u = t then [[u]]
    else
      ((G.edges.filter
        (fun e => e.1 == u && !decide (e.2 ∈ visited))).map Prod.snd).flatMap
          (fun w => (simplePathsAux G n w t (u :: visited)).map (u :: ·))

/-- All simple paths from `s` to `t` in `G`. -/
def simplePaths (G : DiGraph) (s t : Int) : List (List Int) :=
  simplePathsAux G G.nodes.length s t []

/-- The contribution of the ordered pair `(s, t)` to the betweenness of
`v`: the fraction of shortest `s → t` paths passing through `v`. -/
def pairDependency (G : DiGraph) (v s t : Int) : ℚ :=
  if s = t ∨ s = v ∨ t = v then 0
  else
    let ps := simplePaths G s t
    if ps.isEmpty then 0
    else
      let d := ((ps.map List.length).min?).getD 0
      let shortest := ps.filter (fun p => p.length == d)
      let sigmaV := (shortest.filter (fun p => decide (v ∈ p))).length
      (sigmaV : ℚ) / (shortest.length : ℚ)

/-- `nx.betweenness_centrality` (directed, normalized, endpoints
excluded), computed by exhaustive shortest-path enumeration. -/
def betweennessOf (G : DiGraph) (v : Int) : ℚ :=
  let ns := G.nodeIds
  let total := (ns.flatMap (fun s => ns.map (fun t => pairDependency G v s t))).sum
  let n := G.nodes.length
  if 2 < n then total / (((n : ℚ) - 1) * ((n : ℚ) - 2)) else total

/-- One record of the `analyze_importance` result. -/
structure ImportanceRec where
  id : Int
  name : String
  out_degree : Nat
  descendants : Nat
  betweenness : ℚ
deriving DecidableEq

/-- Python's `sort(key=(descendants, betweenness), reverse=True)` order:
descending lexicographic on the key pair. -/
def impGe (a b : ImportanceRec) : Prop :=
  b.descendants < a.descendants ∨
    (b.descendants = a.descendants ∧ b.betweenness ≤ a.betweenness)

instance : DecidableRel impGe := fun a b => by unfold impGe; infer_instance

instance : IsTotal ImportanceRec impGe := by
  constructor
  intro a b
  unfold impGe
  rcases Nat.lt_trichotomy a.descendants b.descendants with h | h | h
  · exact Or.inr (Or.inl h)
  · rcases le_total a.betweenness b.betweenness with hb | hb
    · exact Or.inr (Or.inr ⟨h, hb⟩)
    · exact Or.inl (Or.inr ⟨h.symm, hb⟩)
  · exact Or.inl (Or.inl h)

instance : IsTrans ImportanceRec impGe := by
  constructor
  intro a b c hab hbc
  unfold impGe at *
  rcases hab with h1 | ⟨h1, h1'⟩ <;> rcases hbc with h2 | ⟨h2, h2'⟩
  · exact Or.inl (Nat.lt_trans h2 h1)
  · exact Or.inl (h2 ▸ h1)
  · exact Or.inl (h1 ▸ h2)
  · exact Or.inr ⟨h2.trans h1, h2'.trans h1'⟩

/-- `analyze_importance`: per-node metrics, sorted descending by
`(descendants, betweenness)`. -/
def analyze_importance (db : DB) : List ImportanceRec :=
  let G := build_prereq_graph db
  let recs := G.nodes.map (fun p =>
    { id := p.1
      name := p.2
      out_degree := (G.edges.filter (fun e => e.1 == p.1)).length
      descendants := (descendantsOf G p.1).length
      betweenness := betweennessOf G p.1 : ImportanceRec })
  recs.insertionSort impGe

/-- The result record of `visualize_student_progress`. -/
structure VizResult where
  positions : List (Int × (ℚ × ℚ))
  statuses : List (Int × String)
  labels : List (Int × String)
deriving DecidableEq

/-- `visualize_student_progress`.  The spring layout is a floating-point
external library routine, so it is passed in as the `layout` parameter;
everything else follows the source. -/
def visualize_student_progress (layout : DiGraph → List (Int × (ℚ × ℚ)))
    (db : DB) (userId : Int) : VizResult :=
  match getStudentProfileId db userId with
  | none => ⟨[], [], []⟩
  | some sp =>
    let rows := db.studentDisciplines.filter (fun r => r.1 == sp)
    let G := build_prereq_graph db
    let labels := G.nodes
    let statuses := G.nodeIds.map (fun n =>
      (n, ((rows.reverse.find? (fun r => r.2.1 == n)).map
        (fun r => r.2.2)).getD "nao_associada"))
    let positions := if 0 < G.nodes.length then layout G else []
    ⟨positions, statuses, labels⟩

/-! ### Concrete stores used to exercise the theorems -/

/-- A store whose prerequisite graph is the chain 1 → 2 → 3 plus an
isolated discipline 4, with one student (user 10, profile 100) who
concluded discipline 1 and is currently taking discipline 2. -/
def dbDag : DB :=
  ⟨[(1, "A"), (2, "B"), (3, "C"), (4, "D")],
   [(some 2, some 1), (some 3, some 2)],
   [(10, 100)],
   [(100, 1, "concluido"), (100, 2, "cursando")]⟩

/-- A store whose prerequisite graph is the 3-cycle 1 → 2 → 3 → 1. -/
def dbCyc : DB :=
  ⟨[(1, "A"), (2, "B"), (3, "C")],
   [(some 2, some 1), (some 3, some 2), (some 1, some 3)],
   [(10, 100)],
   []⟩

/-- A store with dangling prerequisite rows (disciplines 2 and 9 are
absent from the catalog) and two rows with null ids; it has no student
profiles. -/
def dbDangling : DB :=
  ⟨[(1, "A")],
   [(some 2, some 1), (some 1, some 9), (none, some 5), (some 7, none)],
   [],
   []⟩

/-- A store whose prerequisite graph is exactly the chain 1 → 2 → 3, so
the three descendant counts 2, 1, 0 are pairwise distinct. -/
def dbChain : DB :=
  ⟨[(1, "A"), (2, "B"), (3, "C")],
   [(some 2, some 1), (some 3, some 2)],
   [],
   []⟩

/-! ### Basic properties of the graph primitives -/

theorem nodeIds_addNode (G : DiGraph) (i : Int) (s : String) :
    (G.addNode i s).nodeIds =
      if i ∈ G.nodeIds then G.nodeIds else G.nodeIds ++ [i] := by
  unfold DiGraph.addNode DiGraph.nodeIds
  split
  · simp only [List.map_map]
    congr 1
    funext p
    by_cases h : p.1 = i <;> simp [h]
  · simp

theorem mem_nodeIds_addNode {G : DiGraph} {i j : Int} {s : String} :
    j ∈ (G.addNode i s).nodeIds ↔ j = i ∨ j ∈ G.nodeIds := by
  rw [nodeIds_addNode]
  split <;> rename_i h
  · constructor
    · exact Or.inr
    · rintro (rfl | hj)
      · exact h
      · exact hj
  · simp [List.mem_append, List.mem_singleton, or_comm]

theorem edges_addNode (G : DiGraph) (i : Int) (s : String) :
    (G.addNode i s).edges = G.edges := by
  unfold DiGraph.addNode
  split <;> rfl

theorem nodup_nodeIds_addNode {G : DiGraph} (h : G.nodeIds.Nodup)
    (i : Int) (s : String) : (G.addNode i s).nodeIds.Nodup := by
  rw [nodeIds_addNode]
  split
  · exact h
  · rename_i hi
    simpa [List.nodup_append] using ⟨h, hi⟩

theorem nodeIds_ensureNode (G : DiGraph) (i : Int) :
    (ensureNode G i).nodeIds =
      if i ∈ G.nodeIds then G.nodeIds else G.nodeIds ++ [i] := by
  unfold ensureNode
  split <;> rename_i h
  · simp [h]
  · rw [nodeIds_addNode, if_neg h]

theorem mem_nodeIds_ensureNode {G : DiGraph} {i j : Int} :
    j ∈ (ensureNode G i).nodeIds ↔ j = i ∨ j ∈ G.nodeIds := by
  rw [nodeIds_ensureNode]
  split <;> rename_i h
  · constructor
    · exact Or.inr
    · rintro (rfl | hj)
      · exact h
      · exact hj
  · simp [List.mem_append, List.mem_singleton, or_comm]

theorem self_mem_nodeIds_ensureNode (G : DiGraph) (i : Int) :
    i ∈ (ensureNode G i).nodeIds :=
  mem_nodeIds_ensureNode.2 (Or.inl rfl)

theorem edges_ensureNode (G : DiGraph) (i : Int) :
    (ensureNode G i).edges = G.edges := by
  unfold ensureNode
  split
  · rfl
  · exact edges_addNode G i _

theorem nodes_addEdge (G : DiGraph) (u v : Int) :
    (G.addEdge u v).nodes = G.nodes := by
  unfold DiGraph.addEdge
  split <;> rfl

theorem nodeIds_addEdge (G : DiGraph) (u v : Int) :
    (G.addEdge u v).nodeIds = G.nodeIds := by
  unfold DiGraph.nodeIds
  rw [nodes_addEdge]

theorem mem_edges_addEdge {G : DiGraph} {u v : Int} {e : Int × Int} :
    e ∈ (G.addEdge u v).edges ↔ e = (u, v) ∨ e ∈ G.edges := by
  unfold DiGraph.addEdge
  split <;> rename_i h
  · constructor
    · exact Or.inr
    · rintro (rfl | he)
      · exact h
      · exact he
  · simp [List.mem_append, or_comm]

theorem nodup_edges_addEdge {G : DiGraph} (h : G.edges.Nodup) (u v : Int) :
    (G.addEdge u v).edges.Nodup := by
  unfold DiGraph.addEdge
  split <;> rename_i he
  · exact h
  · simpa [List.nodup_append] using ⟨h, he⟩

/-! ### Builder invariants -/

theorem foldl_preserve {α : Type} (P : DiGraph → Prop)
    (f : DiGraph → α → DiGraph) (h : ∀ G a, P G → P (f G a)) :
    ∀ (l : List α) (G : DiGraph), P G → P (l.foldl f G)
  | [], _, hG => hG
  | a :: l, G, hG => foldl_preserve P f h l (f G a) (h G a hG)

theorem WF_addNode {G : DiGraph} (h : WF G) (i : Int) (s : String) :
    WF (G.addNode i s) := by
  obtain ⟨h1, h2, h3⟩ := h
  refine ⟨nodup_nodeIds_addNode h1 i s, ?_, ?_⟩
  · rw [edges_addNode]; exact h2
  · intro e he
    rw [edges_addNode] at he
    obtain ⟨ha, hb⟩ := h3 e he
    exact ⟨mem_nodeIds_addNode.2 (Or.inr ha), mem_nodeIds_addNode.2 (Or.inr hb)⟩

theorem WF_ensureNode {G : DiGraph} (h : WF G) (i : Int) :
    WF (ensureNode G i) := by
  unfold ensureNode
  split
  · exact h
  · exact WF_addNode h i _

theorem WF_addEdge {G : DiGraph} (h : WF G) {u v : Int}
    (hu : u ∈ G.nodeIds) (hv : v ∈ G.nodeIds) : WF (G.addEdge u v) := by
  obtain ⟨h1, h2, h3⟩ := h
  refine ⟨?_, nodup_edges_addEdge h2 u v, ?_⟩
  · rw [nodeIds_addEdge]; exact h1
  · intro e he
    rw [mem_edges_addEdge] at he
    rw [nodeIds_addEdge]
    rcases he with rfl | he
    · exact ⟨hu, hv⟩
    · exact h3 e he

theorem WF_addPrereqRow {G : DiGraph} (h : WF G)
    (r : Option Int × Option Int) : WF (addPrereqRow G r) := by
  unfold addPrereqRow
  match r with
  | (some discId, some prereqId) =>
    refine WF_addEdge (WF_ensureNode (WF_ensureNode h prereqId) discId) ?_ ?_
    · exact mem_nodeIds_ensureNode.2 (Or.inr (self_mem_nodeIds_ensureNode G prereqId))
    · exact self_mem_nodeIds_ensureNode _ discId
  | (some _, none) => exact h
  | (none, _) => exact h

theorem WF_build (db : DB) : WF (build_prereq_graph db) := by
  unfold build_prereq_graph
  refine foldl_preserve WF addPrereqRow
    (fun G r hG => WF_addPrereqRow hG r) _ _ ?_
  refine foldl_preserve WF (fun G (p : Int × String) => G.addNode p.1 p.2)
    (fun G p hG => WF_addNode hG p.1 p.2) _ _ ?_
  exact ⟨List.nodup_nil, List.nodup_nil, by intro e he; cases he⟩

/-! ### Kahn's algorithm: soundness -/

theorem kahnAux_perm (G : DiGraph) :
    ∀ (fuel : Nat) (rem l : List Int),
      kahnAux G fuel rem = some l → l.Perm rem := by
  intro fuel
  induction fuel with
  | zero =>
    intro rem l h
    unfold kahnAux at h
    split at h
    · rename_i hre
      cases h
      rw [List.isEmpty_iff] at hre
      rw [hre]
    · cases h
  | succ fuel ih =>
    intro rem l h
    unfold kahnAux at h
    cases hf : rem.find? (noPredWithin G rem) with
    | none =>
      rw [hf] at h
      dsimp only at h
      split at h
      · rename_i hre
        cases h
        rw [List.isEmpty_iff] at hre
        rw [hre]
      · cases h
    | some v =>
      rw [hf] at h
      dsimp only at h
      cases hk : kahnAux G fuel (rem.erase v) with
      | none => rw [hk] at h; rw [Option.map_none'] at h; cases h
      | some l' =>
        rw [hk] at h
        rw [Option.map_some'] at h
        cases h
        have hv : v ∈ rem := List.mem_of_find?_eq_some hf
        exact ((ih _ _ hk).cons v).trans (List.perm_cons_erase hv).symm

theorem kahnAux_pairwise (G : DiGraph) :
    ∀ (fuel : Nat) (rem l : List Int), kahnAux G fuel rem = some l →
      l.Pairwise (fun a b => (b, a) ∉ G.edges) := by
  intro fuel
  induction fuel with
  | zero =>
    intro rem l h
    unfold kahnAux at h
    split at h
    · cases h; exact List.Pairwise.nil
    · cases h
  | succ fuel ih =>
    intro rem l h
    unfold kahnAux at h
    cases hf : rem.find? (noPredWithin G rem) with
    | none =>
      rw [hf] at h
      dsimp only at h
      split at h
      · cases h; exact List.Pairwise.nil
      · cases h
    | some v =>
      rw [hf] at h
      dsimp only at h
      cases hk : kahnAux G fuel (rem.erase v) with
      | none => rw [hk] at h; rw [Option.map_none'] at h; cases h
      | some l' =>
        rw [hk] at h
        rw [Option.map_some'] at h
        cases h
        refine List.Pairwise.cons ?_ (ih _ _ hk)
        intro b hb
        have hbrem : b ∈ rem :=
          List.mem_of_mem_erase ((kahnAux_perm G fuel _ _ hk).mem_iff.1 hb)
        have hnp := List.find?_some hf
        unfold noPredWithin at hnp
        rw [List.all_eq_true] at hnp
        simpa using hnp b hbrem

theorem kahnAux_no_self_loop (G : DiGraph) :
    ∀ (fuel : Nat) (rem l : List Int), kahnAux G fuel rem = some l →
      ∀ v ∈ l, (v, v) ∉ G.edges := by
  intro fuel
  induction fuel with
  | zero =>
    intro rem l h
    unfold kahnAux at h
    split at h
    · cases h; intro v hv; cases hv
    · cases h
  | succ fuel ih =>
    intro rem l h
    unfold kahnAux at h
    cases hf : rem.find? (noPredWithin G rem) with
    | none =>
      rw [hf] at h
      dsimp only at h
      split at h
      · cases h; intro v hv; cases hv
      · cases h
    | some v =>
      rw [hf] at h
      dsimp only at h
      cases hk : kahnAux G fuel (rem.erase v) with
      | none => rw [hk] at h; rw [Option.map_none'] at h; cases h
      | some l' =>
        rw [hk] at h
        rw [Option.map_some'] at h
        cases h
        intro w hw
        rcases List.mem_cons.1 hw with rfl | hw'
        · have hnp := List.find?_some hf
          unfold noPredWithin at hnp
          rw [List.all_eq_true] at hnp
          simpa using hnp w (List.mem_of_find?_eq_some hf)
        · exact ih _ _ hk w hw'

/-! ### Kahn's algorithm: completeness on acyclic graphs -/

theorem exists_source (G : DiGraph) {rem : List Int} (hne : rem ≠ [])
    (hdag : ¬ HasCycle G) :
    ∃ v ∈ rem, noPredWithin G rem v = true := by
  by_contra hcon
  push_neg at hcon
  have hpred : ∀ v ∈ rem, ∃ u ∈ rem, (u, v) ∈ G.edges := by
    intro v hv
    have h1 := hcon v hv
    unfold noPredWithin at h1
    simp only [ne_eq, List.all_eq_true] at h1
    push_neg at h1
    obtain ⟨u, hu, hx⟩ := h1
    refine ⟨u, hu, ?_⟩
    simpa using hx
  have hfin : Finite {x : Int // x ∈ rem} := by
    refine Finite.of_injective
      (fun x : {x : Int // x ∈ rem} =>
        (⟨rem.indexOf x.val, List.indexOf_lt_length.2 x.2⟩ : Fin rem.length)) ?_
    intro x y hxy
    have hx := List.getElem_indexOf (List.indexOf_lt_length.2 x.2)
    have hy := List.getElem_indexOf (List.indexOf_lt_length.2 y.2)
    apply Subtype.ext
    rw [← hx, ← hy]
    simp only [Fin.mk.injEq] at hxy
    simp [hxy]
  obtain ⟨v0, hv0⟩ := List.exists_mem_of_ne_nil rem hne
  let f : {x : Int // x ∈ rem} → {x : Int // x ∈ rem} :=
    fun x => ⟨(hpred x.val x.2).choose, ((hpred x.val x.2).choose_spec).1⟩
  have hf : ∀ x, ((f x).val, x.val) ∈ G.edges :=
    fun x => ((hpred x.val x.2).choose_spec).2
  let g : ℕ → {x : Int // x ∈ rem} := fun n => f^[n] ⟨v0, hv0⟩
  have hstep : ∀ n, ((g (n + 1)).val, (g n).val) ∈ G.edges := by
    intro n
    have he : g (n + 1) = f (g n) := Function.iterate_succ_apply' f n _
    rw [he]
    exact hf (g n)
  have hchain : ∀ k n,
      Relation.TransGen (EdgeRel G) (g (n + k + 1)).val (g n).val := by
    intro k
    induction k with
    | zero => exact fun n => Relation.TransGen.single (hstep n)
    | succ k ih =>
      intro n
      have h1 : EdgeRel G (g (n + k + 1 + 1)).val (g (n + k + 1)).val :=
        hstep (n + k + 1)
      have h2 := Relation.TransGen.head h1 (ih n)
      have he : n + (k + 1) + 1 = n + k + 1 + 1 := by omega
      rw [he]
      exact h2
  obtain ⟨i, j, hij, hgij⟩ := Finite.exists_ne_map_eq_of_infinite g
  rcases lt_or_gt_of_ne hij with hlt | hgt
  · have h2 := hchain (j - i - 1) i
    have he : i + (j - i - 1) + 1 = j := by omega
    rw [he] at h2
    rw [hgij] at h2
    exact hdag ⟨(g j).val, h2⟩
  · have h2 := hchain (i - j - 1) j
    have he : j + (i - j - 1) + 1 = i := by omega
    rw [he] at h2
    rw [← hgij] at h2
    exact hdag ⟨(g i).val, h2⟩

theorem kahnAux_isSome (G : DiGraph) (hdag : ¬ HasCycle G) :
    ∀ (fuel : Nat) (rem : List Int), rem.length ≤ fuel →
      (kahnAux G fuel rem).isSome := by
  intro fuel
  induction fuel with
  | zero =>
    intro rem hlen
    unfold kahnAux
    have : rem = [] := List.length_eq_zero.1 (Nat.le_zero.1 hlen)
    rw [this]
    simp
  | succ fuel ih =>
    intro rem hlen
    by_cases hne : rem = []
    · subst hne
      unfold kahnAux
      simp
    · obtain ⟨v, hv, hnp⟩ := exists_source G hne hdag
      cases hf : rem.find? (noPredWithin G rem) with
      | none =>
        exfalso
        have hfind : (rem.find? (noPredWithin G rem)).isSome :=
          List.find?_isSome.2 ⟨v, hv, hnp⟩
        rw [hf] at hfind
        cases hfind
      | some w =>
        have hw : w ∈ rem := List.mem_of_find?_eq_some hf
        have hlen' : (rem.erase w).length ≤ fuel := by
          rw [List.length_erase_of_mem hw]
          omega
        have h2 := ih (rem.erase w) hlen'
        unfold kahnAux
        rw [hf]
        dsimp only
        cases hk : kahnAux G fuel (rem.erase w) with
        | none => rw [hk] at h2; cases h2
        | some l' => simp

/-! ### Topological sort: top-level properties -/

theorem topologicalSort_perm {G : DiGraph} {l : List Int}
    (h : topologicalSort G = some l) : l.Perm G.nodeIds :=
  kahnAux_perm G _ _ _ h

theorem topologicalSort_pairwise {G : DiGraph} {l : List Int}
    (h : topologicalSort G = some l) :
    l.Pairwise (fun a b => (b, a) ∉ G.edges) :=
  kahnAux_pairwise G _ _ _ h

theorem topologicalSort_no_self_loop {G : DiGraph} {l : List Int}
    (h : topologicalSort G = some l) : ∀ v ∈ l, (v, v) ∉ G.edges :=
  kahnAux_no_self_loop G _ _ _ h

theorem topologicalSort_isSome {G : DiGraph} (hdag : ¬ HasCycle G) :
    (topologicalSort G).isSome :=
  kahnAux_isSome G hdag _ _ (le_refl _)

theorem topo_edge_indexOf_lt {G : DiGraph} {l : List Int} (hwf : WF G)
    (h : topologicalSort G = some l) {u v : Int}
    (he : (u, v) ∈ G.edges) : l.indexOf u < l.indexOf v := by
  have hperm := topologicalSort_perm h
  have hnodup : l.Nodup := hperm.nodup_iff.2 hwf.1
  have hu : u ∈ l := hperm.mem_iff.2 (hwf.2.2 _ he).1
  have hv : v ∈ l := hperm.mem_iff.2 (hwf.2.2 _ he).2
  have hne : u ≠ v := by
    rintro rfl
    exact topologicalSort_no_self_loop h u hu he
  have hiu := List.indexOf_lt_length.2 hu
  have hiv := List.indexOf_lt_length.2 hv
  rcases Nat.lt_trichotomy (l.indexOf u) (l.indexOf v) with hlt | heq | hgt
  · exact hlt
  · exfalso
    apply hne
    have h1 := List.getElem_indexOf hiu
    have h2 := List.getElem_indexOf hiv
    simp only [heq] at h1
    exact h1.symm.trans h2
  · exfalso
    have := (List.pairwise_iff_getElem.1 (topologicalSort_pairwise h))
      (l.indexOf v) (l.indexOf u) hiv hiu hgt
    rw [List.getElem_indexOf hiu, List.getElem_indexOf hiv] at this
    exact this he

theorem topo_transGen_indexOf_lt {G : DiGraph} {l : List Int} (hwf : WF G)
    (h : topologicalSort G = some l) {u v : Int}
    (ht : Relation.TransGen (EdgeRel G) u v) :
    l.indexOf u < l.indexOf v := by
  induction ht with
  | single he => exact topo_edge_indexOf_lt hwf h he
  | tail _ he ih => exact Nat.lt_trans ih (topo_edge_indexOf_lt hwf h he)

theorem topologicalSort_acyclic {G : DiGraph} {l : List Int} (hwf : WF G)
    (h : topologicalSort G = some l) : ¬ HasCycle G := by
  rintro ⟨v, hv⟩
  exact Nat.lt_irrefl _ (topo_transGen_indexOf_lt hwf h hv)

theorem hasCycle_topologicalSort_eq_none {G : DiGraph} (hwf : WF G)
    (hcyc : HasCycle G) : topologicalSort G = none := by
  cases h : topologicalSort G with
  | none => rfl
  | some l => exact absurd hcyc (topologicalSort_acyclic hwf h)

/-! ### Induced and filtered subgraphs -/

theorem map_fst_filter_fst (nodes : List (Int × String)) (q : Int → Bool) :
    (nodes.filter (fun p => q p.1)).map Prod.fst =
      (nodes.map Prod.fst).filter q := by
  induction nodes with
  | nil => rfl
  | cons p l ih =>
    by_cases h : q p.1 = true <;>
      simp [List.filter_cons, h, ih]

theorem nodeIds_subgraphOn (G : DiGraph) (s : List Int) :
    (subgraphOn G s).nodeIds = G.nodeIds.filter (fun i => decide (i ∈ s)) := by
  unfold subgraphOn DiGraph.nodeIds
  dsimp only
  exact map_fst_filter_fst G.nodes (fun i => decide (i ∈ s))

theorem mem_nodeIds_subgraphOn {G : DiGraph} {s : List Int} {i : Int} :
    i ∈ (subgraphOn G s).nodeIds ↔ i ∈ G.nodeIds ∧ i ∈ s := by
  rw [nodeIds_subgraphOn]
  simp [List.mem_filter]

theorem mem_edges_subgraphOn {G : DiGraph} {s : List Int} {e : Int × Int} :
    e ∈ (subgraphOn G s).edges ↔
      e ∈ G.edges ∧ e.1 ∈ (subgraphOn G s).nodeIds ∧
        e.2 ∈ (subgraphOn G s).nodeIds := by
  unfold subgraphOn
  rw [List.mem_filter]
  unfold DiGraph.nodeIds
  simp

theorem nodeIds_removeNodes (G : DiGraph) (s : List Int) :
    (removeNodes G s).nodeIds = G.nodeIds.filter (fun i => !decide (i ∈ s)) := by
  unfold removeNodes DiGraph.nodeIds
  dsimp only
  exact map_fst_filter_fst G.nodes (fun i => !decide (i ∈ s))

theorem mem_nodeIds_removeNodes {G : DiGraph} {s : List Int} {i : Int} :
    i ∈ (removeNodes G s).nodeIds ↔ i ∈ G.nodeIds ∧ i ∉ s := by
  rw [nodeIds_removeNodes]
  simp [List.mem_filter]

theorem mem_edges_removeNodes {G : DiGraph} {s : List Int} {e : Int × Int} :
    e ∈ (removeNodes G s).edges ↔ e ∈ G.edges ∧ e.1 ∉ s ∧ e.2 ∉ s := by
  unfold removeNodes
  rw [List.mem_filter]
  simp

theorem WF_subgraphOn {G : DiGraph} (hwf : WF G) (s : List Int) :
    WF (subgraphOn G s) := by
  refine ⟨?_, ?_, ?_⟩
  · rw [nodeIds_subgraphOn]
    exact hwf.1.filter _
  · exact hwf.2.1.filter _
  · intro e he
    rw [mem_edges_subgraphOn] at he
    exact ⟨he.2.1, he.2.2⟩

theorem WF_removeNodes {G : DiGraph} (hwf : WF G) (s : List Int) :
    WF (removeNodes G s) := by
  refine ⟨?_, ?_, ?_⟩
  · rw [nodeIds_removeNodes]
    exact hwf.1.filter _
  · exact hwf.2.1.filter _
  · intro e he
    rw [mem_edges_removeNodes] at he
    obtain ⟨hg, h1, h2⟩ := he
    obtain ⟨ha, hb⟩ := hwf.2.2 e hg
    exact ⟨mem_nodeIds_removeNodes.2 ⟨ha, h1⟩, mem_nodeIds_removeNodes.2 ⟨hb, h2⟩⟩

theorem WF_gradSubgraph (db : DB) (sp : Int) (req : List Int) :
    WF (gradSubgraph db sp req) :=
  WF_removeNodes (WF_subgraphOn (WF_build db) req) _

theorem edge_mem_gradSubgraph {db : DB} {sp : Int} {req : List Int}
    {p d : Int} (he : (p, d) ∈ (build_prereq_graph db).edges)
    (hp : p ∈ (gradSubgraph db sp req).nodeIds)
    (hd : d ∈ (gradSubgraph db sp req).nodeIds) :
    (p, d) ∈ (gradSubgraph db sp req).edges := by
  unfold gradSubgraph at *
  rw [mem_nodeIds_removeNodes] at hp hd
  rw [mem_edges_removeNodes]
  refine ⟨?_, hp.2, hd.2⟩
  rw [mem_edges_subgraphOn]
  exact ⟨he, hp.1, hd.1⟩

/-! ### Graduation path: unfolding lemmas -/

theorem calculate_graduation_path_eq {db : DB} {uid sp : Int}
    {req l : List Int} (h : getStudentProfileId db uid = some sp)
    (ht : topologicalSort (gradSubgraph db sp req) = some l) :
    calculate_graduation_path db uid req =
      l.filter (fun n =>
        decide (n ∈ req.filter (fun i => !decide (i ∈ concludedOf db sp)))) := by
  unfold calculate_graduation_path
  rw [h]
  dsimp only
  rw [ht]

theorem calculate_graduation_path_eq_nil {db : DB} {uid sp : Int}
    {req : List Int} (h : getStudentProfileId db uid = some sp)
    (ht : topologicalSort (gradSubgraph db sp req) = none) :
    calculate_graduation_path db uid req = [] := by
  unfold calculate_graduation_path
  rw [h]
  dsimp only
  rw [ht]

theorem pairwise_indexOf_lt {α : Type} [DecidableEq α] {l : List α}
    {R : α → α → Prop} (hpw : l.Pairwise R) {u v : α}
    (hu : u ∈ l) (hv : v ∈ l) (hne : u ≠ v) (hnR : ¬ R v u) :
    l.indexOf u < l.indexOf v := by
  have hiu := List.indexOf_lt_length.2 hu
  have hiv := List.indexOf_lt_length.2 hv
  rcases Nat.lt_trichotomy (l.indexOf u) (l.indexOf v) with hlt | heq | hgt
  · exact hlt
  · exfalso
    apply hne
    have h1 := List.getElem_indexOf hiu
    have h2 := List.getElem_indexOf hiv
    simp only [heq] at h1
    exact h1.symm.trans h2
  · exfalso
    have := (List.pairwise_iff_getElem.1 hpw)
      (l.indexOf v) (l.indexOf u) hiv hiu hgt
    rw [List.getElem_indexOf hiu, List.getElem_indexOf hiv] at this
    exact hnR this

/-- Claim C2: graduation ordering respects precedence — for every
prerequisite edge p → d with both endpoints present in a returned
graduation path, p appears strictly before d in the path. -/
theorem C2_graduation_respects_precedence (db : DB) (uid : Int)
    (req : List Int) (p d : Int)
    (he : (p, d) ∈ (build_prereq_graph db).edges)
    (hp : p ∈ calculate_graduation_path db uid req)
    (hd : d ∈ calculate_graduation_path db uid req) :
    (calculate_graduation_path db uid req).indexOf p <
      (calculate_graduation_path db uid req).indexOf d := by
  cases hsp : getStudentProfileId db uid with
  | none =>
    exfalso
    unfold calculate_graduation_path at hp
    rw [hsp] at hp
    cases hp
  | some sp =>
    cases ht : topologicalSort (gradSubgraph db sp req) with
    | none =>
      exfalso
      rw [calculate_graduation_path_eq_nil hsp ht] at hp
      cases hp
    | some l =>
      have hwf := WF_gradSubgraph db sp req
      have heq := calculate_graduation_path_eq hsp ht
      have hpl : p ∈ l := by
        rw [heq] at hp
        exact (List.mem_filter.1 hp).1
      have hdl : d ∈ l := by
        rw [heq] at hd
        exact (List.mem_filter.1 hd).1
      have hperm := topologicalSort_perm ht
      have hpe : (p, d) ∈ (gradSubgraph db sp req).edges :=
        edge_mem_gradSubgraph he (hperm.mem_iff.1 hpl) (hperm.mem_iff.1 hdl)
      have hne : p ≠ d := by
        rintro rfl
        exact topologicalSort_no_self_loop ht p hpl hpe
      have hpw : (calculate_graduation_path db uid req).Pairwise
          (fun a b => (b, a) ∉ (gradSubgraph db sp req).edges) := by
        rw [heq]
        exact (topologicalSort_pairwise ht).filter _
      exact pairwise_indexOf_lt hpw hp hd hne (fun hcon => hcon hpe)

/-- Witness for C2 on a concrete store: edge 2 → 3, path [2, 3]. -/
theorem C2_witness :
    ((2 : Int), (3 : Int)) ∈ (build_prereq_graph dbDag).edges ∧
    (2 : Int) ∈ calculate_graduation_path dbDag 10 [1, 2, 3] ∧
    (3 : Int) ∈ calculate_graduation_path dbDag 10 [1, 2, 3] ∧
    (calculate_graduation_path dbDag 10 [1, 2, 3]).indexOf 2 <
      (calculate_graduation_path dbDag 10 [1, 2, 3]).indexOf 3 :=
  ⟨by decide, by decide, by decide,
    C2_graduation_respects_precedence dbDag 10 [1, 2, 3] 2 3
      (by decide) (by decide) (by decide)⟩

/-- Claim C4: graduation path membership — every element of the returned
path is a required discipline that the student has not concluded; in
particular no concluded discipline and no node outside the required set
ever appears. -/
theorem C4_graduation_path_membership (db : DB) (uid sp : Int)
    (req : List Int) (h : getStudentProfileId db uid = some sp) :
    ∀ x ∈ calculate_graduation_path db uid req,
      x ∈ req ∧ x ∉ concludedOf db sp := by
  intro x hx
  cases ht : topologicalSort (gradSubgraph db sp req) with
  | none =>
    exfalso
    rw [calculate_graduation_path_eq_nil h ht] at hx
    cases hx
  | some l =>
    rw [calculate_graduation_path_eq h ht] at hx
    have h2 := (List.mem_filter.1 hx).2
    simp only [decide_eq_true_eq] at h2
    have h3 := List.mem_filter.1 h2
    refine ⟨h3.1, ?_⟩
    have h4 := h3.2
    simp only [Bool.not_eq_true', decide_eq_false_iff_not] at h4
    exact h4

/-- Witness for C4 on a concrete store: the path [2, 3] for required
set [1, 2, 3] contains 2, which is required and not concluded. -/
theorem C4_witness :
    getStudentProfileId dbDag 10 = some 100 ∧
    (2 : Int) ∈ calculate_graduation_path dbDag 10 [1, 2, 3] ∧
    (2 : Int) ∈ [(1 : Int), 2, 3] ∧ (2 : Int) ∉ concludedOf dbDag 100 :=
  ⟨by decide, by decide,
    C4_graduation_path_membership dbDag 10 100 [1, 2, 3] (by decide)
      2 (by decide)⟩

/-- Claim C5: graduation infeasibility signalling — when the induced
subgraph over the required set minus the student's concluded disciplines
contains a cycle, the returned path is empty. -/
theorem C5_graduation_infeasible_empty (db : DB) (uid sp : Int)
    (req : List Int) (h : getStudentProfileId db uid = some sp)
    (hcyc : HasCycle (gradSubgraph db sp req)) :
    calculate_graduation_path db uid req = [] :=
  calculate_graduation_path_eq_nil h
    (hasCycle_topologicalSort_eq_none (WF_gradSubgraph db sp req) hcyc)

/-- Witness for C5 on a concrete store: the 3-cycle survives into the
induced subgraph, so the path is empty. -/
theorem C5_witness :
    getStudentProfileId dbCyc 10 = some 100 ∧
    HasCycle (gradSubgraph dbCyc 100 [1, 2, 3]) ∧
    calculate_graduation_path dbCyc 10 [1, 2, 3] = [] := by
  refine ⟨by decide, ⟨1, ?_⟩, ?_⟩
  · exact Relation.TransGen.head
      (show ((1 : Int), (2 : Int)) ∈ (gradSubgraph dbCyc 100 [1, 2, 3]).edges
        by decide)
      (Relation.TransGen.head
        (show ((2 : Int), (3 : Int)) ∈ (gradSubgraph dbCyc 100 [1, 2, 3]).edges
          by decide)
        (Relation.TransGen.single
          (show ((3 : Int), (1 : Int)) ∈ (gradSubgraph dbCyc 100 [1, 2, 3]).edges
            by decide)))
  · exact C5_graduation_infeasible_empty dbCyc 10 100 [1, 2, 3] (by decide)
      ⟨1, Relation.TransGen.head
        (show ((1 : Int), (2 : Int)) ∈ (gradSubgraph dbCyc 100 [1, 2, 3]).edges
          by decide)
        (Relation.TransGen.head
          (show ((2 : Int), (3 : Int)) ∈ (gradSubgraph dbCyc 100 [1, 2, 3]).edges
            by decide)
          (Relation.TransGen.single
            (show ((3 : Int), (1 : Int)) ∈ (gradSubgraph dbCyc 100 [1, 2, 3]).edges
              by decide)))⟩

/-- Claim C7: an unknown student is not an error — whenever the user id
resolves to no student profile, the recommender returns the empty list,
every graduation-path query returns the empty list, and the progress
visualization returns three empty mappings (for any layout routine). -/
theorem C7_unknown_student_empty (db : DB) (uid : Int)
    (h : getStudentProfileId db uid = none) :
    recommend_disciplines_for_student db uid = [] ∧
    (∀ req, calculate_graduation_path db uid req = []) ∧
    ∀ layout, visualize_student_progress layout db uid = ⟨[], [], []⟩ := by
  refine ⟨?_, ?_, ?_⟩
  · unfold recommend_disciplines_for_student
    rw [h]
  · intro req
    unfold calculate_graduation_path
    rw [h]
  · intro layout
    unfold visualize_student_progress
    rw [h]

/-- Witness for C7 on a concrete store with no student profiles. -/
theorem C7_witness :
    getStudentProfileId dbDangling 42 = none ∧
    recommend_disciplines_for_student dbDangling 42 = [] ∧
    calculate_graduation_path dbDangling 42 [1] = [] ∧
    visualize_student_progress (fun _ => []) dbDangling 42 = ⟨[], [], []⟩ := by
  have h := C7_unknown_student_empty dbDangling 42 (by decide)
  exact ⟨by decide, h.1, h.2.1 [1], h.2.2 (fun _ => [])⟩

/-! ### Eligibility recommendation: unfolding and membership -/

theorem mem_concludedOf {db : DB} {sp d : Int} :
    d ∈ concludedOf db sp ↔ (sp, d, "concluido") ∈ db.studentDisciplines := by
  unfold concludedOf
  rw [List.mem_map]
  constructor
  · rintro ⟨⟨a, b, c⟩, hr, rfl⟩
    have h1 := List.mem_filter.1 hr
    obtain ⟨hmem, hcond⟩ := h1
    simp only [Bool.and_eq_true, beq_iff_eq] at hcond
    obtain ⟨hsp, hst⟩ := hcond
    subst hsp
    subst hst
    exact hmem
  · intro hmem
    exact ⟨(sp, d, "concluido"), List.mem_filter.2 ⟨hmem, by simp⟩, rfl⟩

theorem recommend_eq {db : DB} {uid sp : Int}
    (h : getStudentProfileId db uid = some sp) :
    recommend_disciplines_for_student db uid =
      ((build_prereq_graph db).nodes.filterMap (fun p =>
        if p.1 ∈ concludedOf db sp then none
        else if (predecessorsOf (build_prereq_graph db) p.1).all
            (fun q => decide (q ∈ concludedOf db sp)) then
          some (p.1, p.2, predecessorsOf (build_prereq_graph db) p.1)
        else none)).insertionSort fewerPrereqs := by
  unfold recommend_disciplines_for_student
  rw [h]

theorem mem_recommend_iff {db : DB} {uid sp : Int}
    (h : getStudentProfileId db uid = some sp) {r : RecEntry} :
    r ∈ recommend_disciplines_for_student db uid ↔
      r ∈ (build_prereq_graph db).nodes.filterMap (fun p =>
        if p.1 ∈ concludedOf db sp then none
        else if (predecessorsOf (build_prereq_graph db) p.1).all
            (fun q => decide (q ∈ concludedOf db sp)) then
          some (p.1, p.2, predecessorsOf (build_prereq_graph db) p.1)
        else none) := by
  rw [recommend_eq h]
  exact (List.perm_insertionSort _ _).mem_iff

theorem recommend_complete {db : DB} {uid sp d : Int}
    (h : getStudentProfileId db uid = some sp)
    (hd : d ∈ (build_prereq_graph db).nodeIds)
    (hnc : d ∉ concludedOf db sp)
    (hpre : ∀ q ∈ predecessorsOf (build_prereq_graph db) d,
      q ∈ concludedOf db sp) :
    d ∈ (recommend_disciplines_for_student db uid).map
      (fun r : RecEntry => r.1) := by
  rw [List.mem_map]
  obtain ⟨p, hp, hfst⟩ := List.mem_map.1 hd
  refine ⟨(p.1, p.2, predecessorsOf (build_prereq_graph db) p.1),
    (mem_recommend_iff h).2 (List.mem_filterMap.2 ⟨p, hp, ?_⟩), hfst⟩
  rw [if_neg (by rw [hfst]; exact hnc), if_pos]
  rw [List.all_eq_true]
  intro q hq
  rw [hfst] at hq
  exact decide_eq_true (hpre q hq)

/-- Claim C3: eligibility is a subset closure — every recommended
discipline has all of its direct prerequisites inside the student's
concluded set and is itself not concluded; and every catalog discipline
without prerequisites is recommended whenever it is not concluded. -/
theorem C3_eligibility_subset_closure (db : DB) (uid sp : Int)
    (h : getStudentProfileId db uid = some sp) :
    (∀ r ∈ recommend_disciplines_for_student db uid,
      (∀ q ∈ predecessorsOf (build_prereq_graph db) r.1,
        q ∈ concludedOf db sp) ∧ r.1 ∉ concludedOf db sp) ∧
    ∀ n ∈ (build_prereq_graph db).nodeIds,
      predecessorsOf (build_prereq_graph db) n = [] →
      n ∉ concludedOf db sp →
      n ∈ (recommend_disciplines_for_student db uid).map
        (fun r : RecEntry => r.1) := by
  constructor
  · intro r hr
    obtain ⟨p, hp, hf⟩ := List.mem_filterMap.1 ((mem_recommend_iff h).1 hr)
    by_cases h1 : p.1 ∈ concludedOf db sp
    · rw [if_pos h1] at hf
      cases hf
    · rw [if_neg h1] at hf
      by_cases h2 : (predecessorsOf (build_prereq_graph db) p.1).all
          (fun q => decide (q ∈ concludedOf db sp)) = true
      · rw [if_pos h2] at hf
        cases hf
        refine ⟨?_, h1⟩
        intro q hq
        have := (List.all_eq_true.1 h2) q hq
        exact of_decide_eq_true this
      · rw [if_neg h2] at hf
        cases hf
  · intro n hn hpre hnc
    refine recommend_complete h hn hnc ?_
    rw [hpre]
    intro q hq
    cases hq

/-- Witness for C3 on a concrete store: entry (2, "B", [1]) of the
recommendation list, and the prerequisite-free discipline 4. -/
theorem C3_witness :
    ((2 : Int), "B", [(1 : Int)]) ∈ recommend_disciplines_for_student dbDag 10 ∧
    (∀ q ∈ predecessorsOf (build_prereq_graph dbDag) 2,
      q ∈ concludedOf dbDag 100) ∧
    (2 : Int) ∉ concludedOf dbDag 100 ∧
    (4 : Int) ∈ (recommend_disciplines_for_student dbDag 10).map
      (fun r : RecEntry => r.1) := by
  have h := C3_eligibility_subset_closure dbDag 10 100 (by decide)
  have h1 := h.1 (2, "B", [1]) (by decide)
  exact ⟨by decide, h1.1, h1.2,
    h.2 4 (by decide) (by decide) (by decide)⟩

/-- Claim C9: a discipline whose status for the student is 'cursando' or
'pendente' (and which has no 'concluido' record) is still recommended
whenever all of its prerequisites are concluded; only 'concluido'
removes it. -/
theorem C9_in_progress_still_recommended (db : DB) (uid sp d : Int)
    (s : String) (h : getStudentProfileId db uid = some sp)
    (_hrow : (sp, d, s) ∈ db.studentDisciplines)
    (_hs : s = "cursando" ∨ s = "pendente")
    (hnc : (sp, d, "concluido") ∉ db.studentDisciplines)
    (hd : d ∈ (build_prereq_graph db).nodeIds)
    (hpre : ∀ q ∈ predecessorsOf (build_prereq_graph db) d,
      q ∈ concludedOf db sp) :
    d ∈ (recommend_disciplines_for_student db uid).map
      (fun r : RecEntry => r.1) :=
  recommend_complete h hd (fun hcon => hnc (mem_concludedOf.1 hcon)) hpre

/-- Witness for C9 on a concrete store: discipline 2 is 'cursando' for
the student, its only prerequisite 1 is concluded, and it is
recommended. -/
theorem C9_witness :
    ((100 : Int), (2 : Int), "cursando") ∈ dbDag.studentDisciplines ∧
    ((100 : Int), (2 : Int), "concluido") ∉ dbDag.studentDisciplines ∧
    (2 : Int) ∈ (recommend_disciplines_for_student dbDag 10).map
      (fun r : RecEntry => r.1) :=
  ⟨by decide, by decide,
    C9_in_progress_still_recommended dbDag 10 100 2 "cursando" (by decide)
      (by decide) (Or.inl rfl) (by decide) (by decide)
      (fun q hq => by
        have : q = 1 := by
          have hq2 : q ∈ [(1 : Int)] := by
            have he : predecessorsOf (build_prereq_graph dbDag) 2 = [1] := by
              decide
            rw [he] at hq
            exact hq
          simpa using hq2
        rw [this]
        decide)⟩

/-! ### Builder: monotonicity, establishment and name lookup -/

theorem edges_mono_addPrereqRow {G : DiGraph} {e : Int × Int}
    (he : e ∈ G.edges) (r : Option Int × Option Int) :
    e ∈ (addPrereqRow G r).edges := by
  unfold addPrereqRow
  match r with
  | (some discId, some prereqId) =>
    rw [mem_edges_addEdge]
    rw [edges_ensureNode, edges_ensureNode]
    exact Or.inr he
  | (some _, none) => exact he
  | (none, _) => exact he

theorem nodeIds_mono_addPrereqRow {G : DiGraph} {j : Int}
    (hj : j ∈ G.nodeIds) (r : Option Int × Option Int) :
    j ∈ (addPrereqRow G r).nodeIds := by
  unfold addPrereqRow
  match r with
  | (some discId, some prereqId) =>
    rw [nodeIds_addEdge]
    exact mem_nodeIds_ensureNode.2
      (Or.inr (mem_nodeIds_ensureNode.2 (Or.inr hj)))
  | (some _, none) => exact hj
  | (none, _) => exact hj

theorem edge_established_foldl {rows : List (Option Int × Option Int)} :
    ∀ {G : DiGraph} {dId pId : Int}, (some dId, some pId) ∈ rows →
      (pId, dId) ∈ (rows.foldl addPrereqRow G).edges := by
  induction rows with
  | nil => intro G dId pId h; cases h
  | cons r rows ih =>
    intro G dId pId h
    rcases List.mem_cons.1 h with heq | htail
    · subst heq
      refine foldl_preserve (fun H => (pId, dId) ∈ H.edges) addPrereqRow
        (fun H a hH => edges_mono_addPrereqRow hH a) rows _ ?_
      unfold addPrereqRow
      dsimp only
      rw [mem_edges_addEdge]
      exact Or.inl rfl
    · exact ih htail

theorem catalog_node_established {l : List (Int × String)} :
    ∀ {G : DiGraph} {p : Int × String}, p ∈ l →
      p.1 ∈ (l.foldl (fun G q => G.addNode q.1 q.2) G).nodeIds := by
  induction l with
  | nil => intro G p h; cases h
  | cons q l ih =>
    intro G p h
    rcases List.mem_cons.1 h with heq | htail
    · subst heq
      refine foldl_preserve (fun H => p.1 ∈ H.nodeIds)
        (fun G q => G.addNode q.1 q.2)
        (fun H a hH => mem_nodeIds_addNode.2 (Or.inr hH)) l _ ?_
      exact mem_nodeIds_addNode.2 (Or.inl rfl)
    · exact ih htail

theorem nodeIds_catalog_fold {l : List (Int × String)} :
    ∀ {G : DiGraph} {j : Int},
      j ∈ (l.foldl (fun G q => G.addNode q.1 q.2) G).nodeIds →
      j ∈ G.nodeIds ∨ j ∈ l.map Prod.fst := by
  induction l with
  | nil => intro G j h; exact Or.inl h
  | cons q l ih =>
    intro G j h
    rcases ih h with h1 | h1
    · rcases mem_nodeIds_addNode.1 h1 with rfl | h2
      · exact Or.inr (List.mem_map.2 ⟨q, List.mem_cons_self q l, rfl⟩)
      · exact Or.inl h2
    · exact Or.inr (List.mem_map.2 (by
        obtain ⟨x, hx, hfx⟩ := List.mem_map.1 h1
        exact ⟨x, List.mem_cons_of_mem q hx, hfx⟩))

theorem lookupName_eq_none_iff {G : DiGraph} {i : Int} :
    lookupName G i = none ↔ i ∉ G.nodeIds := by
  unfold lookupName DiGraph.nodeIds
  rw [Option.map_eq_none', List.find?_eq_none]
  constructor
  · intro h hmem
    obtain ⟨p, hp, hpi⟩ := List.mem_map.1 hmem
    exact absurd (decide_eq_true hpi) (h p hp)
  · intro h p hp
    simp only [decide_eq_true_eq]
    intro hpi
    exact h (List.mem_map.2 ⟨p, hp, hpi⟩)

theorem lookupName_addEdge (G : DiGraph) (u v i : Int) :
    lookupName (G.addEdge u v) i = lookupName G i := by
  unfold lookupName
  rw [nodes_addEdge]

theorem lookupName_ensureNode (G : DiGraph) (j i : Int) :
    lookupName (ensureNode G j) i =
      if i = j ∧ j ∉ G.nodeIds then some (toString j)
      else lookupName G i := by
  unfold ensureNode
  split <;> rename_i hj
  · rw [if_neg]
    rintro ⟨-, hcon⟩
    exact hcon hj
  · unfold DiGraph.addNode
    rw [if_neg hj]
    unfold lookupName
    dsimp only
    rw [List.find?_append]
    by_cases hij : i = j
    · subst hij
      have h1 : List.find? (fun p => decide (p.1 = i)) G.nodes = none := by
        rw [List.find?_eq_none]
        intro x hx
        simp only [decide_eq_true_eq]
        intro hcon
        exact hj (hcon ▸ List.mem_map.2 ⟨x, hx, rfl⟩)
      rw [h1]
      simp [hj]
    · rw [if_neg (fun hc => hij hc.1)]
      have h2 : List.find? (fun p => decide (p.1 = i)) [(j, toString j)] =
          none := by
        rw [List.find?_eq_none]
        intro x hx
        simp only [List.mem_singleton] at hx
        subst hx
        simp only [decide_eq_true_eq]
        exact fun h => hij h.symm
      simp [h2]

theorem lookupName_invariant_addPrereqRow {G : DiGraph} {i : Int}
    (h : i ∉ G.nodeIds ∨ lookupName G i = some (toString i))
    (r : Option Int × Option Int) :
    i ∉ (addPrereqRow G r).nodeIds ∨
      lookupName (addPrereqRow G r) i = some (toString i) := by
  have step : ∀ (H : DiGraph) (j : Int),
      (i ∉ H.nodeIds ∨ lookupName H i = some (toString i)) →
      (i ∉ (ensureNode H j).nodeIds ∨
        lookupName (ensureNode H j) i = some (toString i)) := by
    intro H j hH
    rw [lookupName_ensureNode]
    by_cases hc : i = j ∧ j ∉ H.nodeIds
    · rw [if_pos hc]
      exact Or.inr (by rw [hc.1])
    · rw [if_neg hc]
      rcases hH with h1 | h1
      · by_cases hij : i = j
        · subst hij
          rcases not_and_or.1 hc with hcon | hmem
          · exact absurd rfl hcon
          · exact absurd (not_not.1 hmem) h1
        · refine Or.inl ?_
          rw [mem_nodeIds_ensureNode]
          rintro (rfl | hcon)
          · exact hij rfl
          · exact h1 hcon
      · exact Or.inr h1
  unfold addPrereqRow
  match r with
  | (some discId, some prereqId) =>
    have h1 := step _ discId (step _ prereqId h)
    rcases h1 with h2 | h2
    · refine Or.inl ?_
      rw [nodeIds_addEdge]
      exact h2
    · refine Or.inr ?_
      rw [lookupName_addEdge]
      exact h2
  | (some _, none) => exact h
  | (none, _) => exact h

theorem build_eq (db : DB) :
    build_prereq_graph db =
      db.prereqRows.foldl addPrereqRow
        (db.disciplines.foldl (fun G p => G.addNode p.1 p.2) ⟨[], []⟩) := rfl

/-- Claim C8: the builder tolerates dangling edges — every non-null
prerequisite row produces its edge even when an endpoint is missing from
the catalog, the missing endpoint is materialized with its stringified
id as name, every catalog discipline is a node, and empty inputs yield
the empty graph. -/
theorem C8_dangling_edges_tolerated (db : DB) :
    (∀ p ∈ db.disciplines, p.1 ∈ (build_prereq_graph db).nodeIds) ∧
    (∀ dId pId : Int, (some dId, some pId) ∈ db.prereqRows →
      (pId, dId) ∈ (build_prereq_graph db).edges) ∧
    (∀ dId pId : Int, (some dId, some pId) ∈ db.prereqRows →
      pId ∉ db.disciplines.map Prod.fst →
      lookupName (build_prereq_graph db) pId = some (toString pId)) ∧
    (∀ dId pId : Int, (some dId, some pId) ∈ db.prereqRows →
      dId ∉ db.disciplines.map Prod.fst →
      lookupName (build_prereq_graph db) dId = some (toString dId)) ∧
    (db.disciplines = [] → db.prereqRows = [] →
      build_prereq_graph db = ⟨[], []⟩) := by
  have hedge : ∀ dId pId : Int, (some dId, some pId) ∈ db.prereqRows →
      (pId, dId) ∈ (build_prereq_graph db).edges := by
    intro dId pId h
    rw [build_eq]
    exact edge_established_foldl h
  have hdangle : ∀ x : Int, x ∈ (build_prereq_graph db).nodeIds →
      x ∉ db.disciplines.map Prod.fst →
      lookupName (build_prereq_graph db) x = some (toString x) := by
    intro x hxin hxcat
    have hinit : x ∉ (db.disciplines.foldl
        (fun G p => G.addNode p.1 p.2) (⟨[], []⟩ : DiGraph)).nodeIds := by
      intro hcon
      rcases nodeIds_catalog_fold hcon with h1 | h1
      · cases h1
      · exact hxcat h1
    have hInv := foldl_preserve
      (fun H => x ∉ H.nodeIds ∨ lookupName H x = some (toString x))
      addPrereqRow
      (fun H r hH => lookupName_invariant_addPrereqRow hH r)
      db.prereqRows _ (Or.inl hinit)
    rw [build_eq] at hxin ⊢
    rcases hInv with h1 | h1
    · exact absurd hxin h1
    · exact h1
  refine ⟨?_, hedge, ?_, ?_, ?_⟩
  · intro p hp
    rw [build_eq]
    exact foldl_preserve (fun H => p.1 ∈ H.nodeIds) addPrereqRow
      (fun H r hH => nodeIds_mono_addPrereqRow hH r) db.prereqRows _
      (catalog_node_established hp)
  · intro dId pId h hcat
    exact hdangle pId ((WF_build db).2.2 _ (hedge dId pId h)).1 hcat
  · intro dId pId h hcat
    exact hdangle dId ((WF_build db).2.2 _ (hedge dId pId h)).2 hcat
  · intro h1 h2
    obtain ⟨a, b, c, d⟩ := db
    dsimp only at h1 h2
    subst h1
    subst h2
    rfl

/-- Witness for C8 on a concrete store with dangling rows: catalog node
1 is present, the dangling rows produce edges (1, 2) and (9, 1), the
missing endpoints 2 and 9 get their stringified ids as names, and the
fully empty store builds the empty graph. -/
theorem C8_witness :
    (1 : Int) ∈ (build_prereq_graph dbDangling).nodeIds ∧
    ((1 : Int), (2 : Int)) ∈ (build_prereq_graph dbDangling).edges ∧
    lookupName (build_prereq_graph dbDangling) 9 = some "9" ∧
    lookupName (build_prereq_graph dbDangling) 2 = some "2" ∧
    build_prereq_graph ⟨[], [], [], []⟩ = ⟨[], []⟩ := by
  have h := C8_dangling_edges_tolerated dbDangling
  refine ⟨h.1 (1, "A") (by decide), h.2.1 2 1 (by decide), ?_, ?_,
    (C8_dangling_edges_tolerated ⟨[], [], [], []⟩).2.2.2.2 rfl rfl⟩
  · have := h.2.2.1 1 9 (by decide) (by decide)
    rw [this]
    rfl
  · have := h.2.2.2.1 2 1 (by decide) (by decide)
    rw [this]
    rfl

/-- Claim C10: prerequisite rows with a null discipline or prerequisite
id are silently skipped — the graph built from the store equals the
graph built after deleting every such row, and the builder is total. -/
theorem C10_null_rows_skipped (db : DB) :
    build_prereq_graph db =
      build_prereq_graph
        { db with prereqRows :=
            db.prereqRows.filter (fun r => r.1.isSome && r.2.isSome) } := by
  rw [build_eq, build_eq]
  dsimp only
  generalize (db.disciplines.foldl
    (fun G p => G.addNode p.1 p.2) (⟨[], []⟩ : DiGraph)) = G0
  induction db.prereqRows generalizing G0 with
  | nil => rfl
  | cons r rows ih =>
    match r with
    | (some a, some b) =>
      rw [List.filter_cons]
      simp only [Option.isSome_some, Bool.and_self, if_pos]
      exact ih _
    | (some a, none) =>
      rw [List.filter_cons]
      simp only [Option.isSome_some, Option.isSome_none, Bool.and_false,
        if_neg]
      · exact ih _
    | (none, b) =>
      rw [List.filter_cons]
      simp only [Option.isSome_none, Bool.false_and, if_neg]
      · exact ih _

/-- Claim C6: the importance ranking is sorted descending primarily by
`descendants` with `betweenness` as tie-break, so a record with zero
descendants never appears above one with positive descendants. -/
theorem C6_importance_ranking_sorted (db : DB) :
    (analyze_importance db).Sorted impGe ∧
    ∀ (i j : Nat) (hi : i < (analyze_importance db).length)
      (hj : j < (analyze_importance db).length), i < j →
      0 < ((analyze_importance db).get ⟨j, hj⟩).descendants →
      0 < ((analyze_importance db).get ⟨i, hi⟩).descendants := by
  have hsorted : (analyze_importance db).Sorted impGe := by
    unfold analyze_importance
    exact List.sorted_insertionSort impGe _
  refine ⟨hsorted, ?_⟩
  intro i j hi hj hij hpos
  have h1 := (List.pairwise_iff_getElem.1 hsorted) i j hi hj hij
  rcases h1 with h2 | ⟨h2, -⟩
  · simp only [List.get_eq_getElem]
    omega
  · simp only [List.get_eq_getElem]
    simp only [List.get_eq_getElem] at hpos
    omega

/-- Witness for C6 on the chain store: the records at positions 0 and 1
both have positive descendant counts. -/
theorem C6_witness :
    (0 : Nat) < 1 ∧
    0 < ((analyze_importance dbChain).get ⟨1, by decide⟩).descendants ∧
    0 < ((analyze_importance dbChain).get ⟨0, by decide⟩).descendants :=
  ⟨by decide, by decide,
    (C6_importance_ranking_sorted dbChain).2 0 1 (by decide) (by decide)
      (by decide) (by decide)⟩

/-! ### Elementary cycles: structure lemmas -/

theorem exists_list_min : ∀ (l : List Int), l ≠ [] → ∃ m ∈ l, ∀ x ∈ l, m ≤ x := by
  intro l
  induction l with
  | nil => intro h; exact absurd rfl h
  | cons a l ih =>
    intro _
    by_cases hl : l = []
    · subst hl
      refine ⟨a, List.mem_singleton_self a, ?_⟩
      intro x hx
      rw [List.mem_singleton] at hx
      rw [hx]
    · obtain ⟨m, hm, hle⟩ := ih hl
      by_cases hc : a ≤ m
      · refine ⟨a, List.mem_cons_self a l, ?_⟩
        intro x hx
        rcases List.mem_cons.1 hx with rfl | hx
        · exact le_refl x
        · exact le_trans hc (hle x hx)
      · refine ⟨m, List.mem_cons_of_mem a hm, ?_⟩
        intro x hx
        rcases List.mem_cons.1 hx with rfl | hx
        · exact le_of_not_le hc
        · exact hle x hx

theorem cycEdges_cons (a : Int) (xs : List Int) :
    cycEdges (a :: xs) = (a :: xs).zip (xs ++ [a]) := by
  unfold cycEdges
  rw [show (1 : Nat) = 0 + 1 from rfl, List.rotate_cons_succ, List.rotate_zero]

theorem zip_cycle_chain_iff (G : DiGraph) :
    ∀ (xs : List Int) (u w : Int),
      (∀ e ∈ (u :: xs).zip (xs ++ [w]), e ∈ G.edges) ↔
        List.Chain (EdgeRel G) u (xs ++ [w]) := by
  intro xs
  induction xs with
  | nil =>
    intro u w
    constructor
    · intro h
      refine List.Chain.cons (h (u, w) (List.mem_singleton_self _)) List.Chain.nil
    · intro h e he
      have he' : e ∈ [(u, w)] := he
      rw [List.mem_singleton] at he'
      subst he'
      rcases h with _ | ⟨hr, -⟩
      exact hr
  | cons x xs ih =>
    intro u w
    have hz : (u :: x :: xs).zip ((x :: xs) ++ [w]) =
        (u, x) :: ((x :: xs).zip (xs ++ [w])) := rfl
    rw [hz]
    constructor
    · intro h
      refine List.Chain.cons (h (u, x) (List.mem_cons_self _ _)) ?_
      exact (ih x w).1 (fun e he => h e (List.mem_cons_of_mem _ he))
    · intro h e he
      rcases h with _ | ⟨hr, hch⟩
      rcases List.mem_cons.1 he with rfl | he
      · exact hr
      · exact (ih x w).2 hch e he

theorem isCycleOf_cons_iff {G : DiGraph} {a : Int} {xs : List Int} :
    IsCycleOf G (a :: xs) ↔
      (a :: xs).Nodup ∧ List.Chain (EdgeRel G) a (xs ++ [a]) := by
  unfold IsCycleOf
  rw [cycEdges_cons, zip_cycle_chain_iff]
  simp only [ne_eq, reduceCtorEq, not_false_eq_true, true_and]

theorem chain_append_singleton_transGen (G : DiGraph) :
    ∀ (l : List Int) (a b : Int),
      List.Chain (EdgeRel G) a (l ++ [b]) →
      Relation.TransGen (EdgeRel G) a b := by
  intro l
  induction l with
  | nil =>
    intro a b h
    rcases h with _ | ⟨hr, -⟩
    exact Relation.TransGen.single hr
  | cons c l ih =>
    intro a b h
    rcases h with _ | ⟨hr, hch⟩
    exact Relation.TransGen.head hr (ih c b hch)

theorem hasCycle_of_isCycleOf {G : DiGraph} {c : List Int}
    (h : IsCycleOf G c) : HasCycle G := by
  cases c with
  | nil => exact absurd rfl h.1
  | cons a xs =>
    obtain ⟨-, hch⟩ := isCycleOf_cons_iff.1 h
    exact ⟨a, chain_append_singleton_transGen G xs a a hch⟩

theorem get_congr {c : List Int} {i j : Nat} (hij : i = j)
    (hi : i < c.length) (hj : j < c.length) :
    c.get ⟨i, hi⟩ = c.get ⟨j, hj⟩ := by
  subst hij
  rfl

theorem mem_cycEdges_iff {c : List Int} {e : Int × Int} :
    e ∈ cycEdges c ↔ ∃ (i : Nat) (h : i < c.length)
      (h2 : (i + 1) % c.length < c.length),
      e = (c.get ⟨i, h⟩, c.get ⟨(i + 1) % c.length, h2⟩) := by
  unfold cycEdges
  rw [List.mem_iff_getElem]
  have hlen : (c.zip (c.rotate 1)).length = c.length := by
    rw [List.length_zip, List.length_rotate, Nat.min_self]
  constructor
  · rintro ⟨i, hi, hget⟩
    rw [hlen] at hi
    have hpos : 0 < c.length := Nat.zero_lt_of_lt hi
    refine ⟨i, hi, Nat.mod_lt _ hpos, ?_⟩
    rw [← hget]
    rw [List.getElem_zip]
    simp only [List.get_eq_getElem]
    rw [List.getElem_rotate]
  · rintro ⟨i, hi, h2, rfl⟩
    refine ⟨i, by rw [hlen]; exact hi, ?_⟩
    rw [List.getElem_zip]
    simp only [List.get_eq_getElem]
    rw [List.getElem_rotate]

theorem mem_cycEdges_rotate {c : List Int} (n : Nat) {e : Int × Int} :
    e ∈ cycEdges (c.rotate n) ↔ e ∈ cycEdges c := by
  by_cases hc : c = []
  · subst hc
    rw [List.rotate_nil]
  · have hpos : 0 < c.length := List.length_pos.2 hc
    constructor
    · intro h
      obtain ⟨i, hi, h2, he⟩ := mem_cycEdges_iff.1 h
      rw [List.length_rotate] at hi h2
      have hi1 : i < (c.rotate n).length := by rw [List.length_rotate]; exact hi
      refine mem_cycEdges_iff.2
        ⟨(i + n) % c.length, Nat.mod_lt _ hpos, Nat.mod_lt _ hpos, ?_⟩
      rw [he]
      have e1 : (c.rotate n).get ⟨i, hi1⟩ =
          c.get ⟨(i + n) % c.length, Nat.mod_lt _ hpos⟩ := by
        simp only [List.get_eq_getElem]
        rw [List.getElem_rotate]
      have hidx : ((i + 1) % c.length + n) % c.length =
          ((i + n) % c.length + 1) % c.length := by
        rw [Nat.mod_add_mod, Nat.mod_add_mod]
        have : i + 1 + n = i + n + 1 := by omega
        rw [this]
      have e2 : (c.rotate n).get ⟨(i + 1) % c.length,
          by rw [List.length_rotate]; exact Nat.mod_lt _ hpos⟩ =
          c.get ⟨((i + n) % c.length + 1) % c.length, Nat.mod_lt _ hpos⟩ := by
        simp only [List.get_eq_getElem]
        rw [List.getElem_rotate]
        exact get_congr hidx (Nat.mod_lt _ hpos) (Nat.mod_lt _ hpos)
      rw [← e1, ← e2]
      congr 1 <;> apply get_congr <;> rw [List.length_rotate]
    · intro h
      obtain ⟨j, hj, hj2, he⟩ := mem_cycEdges_iff.1 h
      have hr : n % c.length < c.length := Nat.mod_lt _ hpos
      have hq : c.length * (n / c.length) + n % c.length = n :=
        Nat.div_add_mod n c.length
      refine mem_cycEdges_iff.2 ⟨(j + (c.length - n % c.length)) % c.length,
        by rw [List.length_rotate]; exact Nat.mod_lt _ hpos,
        by rw [List.length_rotate]; exact Nat.mod_lt _ hpos, ?_⟩
      rw [he]
      have hshift : ((j + (c.length - n % c.length)) % c.length + n) %
          c.length = j := by
        rw [Nat.mod_add_mod]
        have hmul : c.length * (n / c.length + 1) =
            c.length * (n / c.length) + c.length := by ring
        have harg : j + (c.length - n % c.length) + n =
            j + c.length * (n / c.length + 1) := by omega
        rw [harg, Nat.add_mul_mod_self_left, Nat.mod_eq_of_lt hj]
      have e1 : (c.rotate n).get ⟨(j + (c.length - n % c.length)) % c.length,
          by rw [List.length_rotate]; exact Nat.mod_lt _ hpos⟩ =
          c.get ⟨j, hj⟩ := by
        simp only [List.get_eq_getElem]
        rw [List.getElem_rotate]
        exact get_congr hshift (Nat.mod_lt _ hpos) hj
      have hshift2 : (((j + (c.length - n % c.length)) % c.length + 1) %
          c.length + n) % c.length = (j + 1) % c.length := by
        rw [Nat.mod_add_mod]
        have harg : (j + (c.length - n % c.length)) % c.length + 1 + n =
            (j + (c.length - n % c.length)) % c.length + n + 1 := by omega
        rw [harg, ← Nat.mod_add_mod, hshift]
      have e2 : (c.rotate n).get
          ⟨((j + (c.length - n % c.length)) % c.length + 1) %
            (c.rotate n).length,
           by rw [List.length_rotate]; exact Nat.mod_lt _ hpos⟩ =
          c.get ⟨(j + 1) % c.length, hj2⟩ := by
        simp only [List.get_eq_getElem, List.length_rotate]
        rw [List.getElem_rotate]
        exact get_congr hshift2 (Nat.mod_lt _ hpos) hj2
      rw [← e1, ← e2]

theorem isCycleOf_rotate {G : DiGraph} {c : List Int} (h : IsCycleOf G c)
    (n : Nat) : IsCycleOf G (c.rotate n) := by
  obtain ⟨hne, hnd, hedges⟩ := h
  refine ⟨?_, ?_, ?_⟩
  · intro hcon
    apply hne
    have := congrArg List.length hcon
    rw [List.length_rotate] at this
    exact List.length_eq_zero.1 this
  · exact (List.rotate_perm c n).nodup_iff.2 hnd
  · intro e he
    exact hedges e ((mem_cycEdges_rotate n).1 he)

theorem exists_minFirst_rotation {c : List Int} (hne : c ≠ []) :
    ∃ n, minFirst (c.rotate n) = true := by
  obtain ⟨m, hm, hle⟩ := exists_list_min c hne
  have hidx : c.indexOf m < c.length := List.indexOf_lt_length.2 hm
  refine ⟨c.indexOf m, ?_⟩
  have hrot : c.rotate (c.indexOf m) =
      c.drop (c.indexOf m) ++ c.take (c.indexOf m) :=
    List.rotate_eq_drop_append_take (Nat.le_of_lt hidx)
  have hhead : (c.rotate (c.indexOf m)).head? = some m := by
    rw [hrot, List.head?_append, List.head?_drop,
      List.getElem?_eq_getElem hidx, List.getElem_indexOf hidx]
    rfl
  unfold minFirst
  rw [hhead]
  rw [List.all_eq_true]
  intro x hx
  exact decide_eq_true (hle x (List.mem_rotate.1 hx))

theorem mem_pickLists :
    ∀ (fuel : Nat) (c pool : List Int), c.Nodup → (∀ x ∈ c, x ∈ pool) →
      c.length ≤ fuel → c ∈ pickLists fuel pool := by
  intro fuel
  induction fuel with
  | zero =>
    intro c pool _ _ hlen
    rw [List.length_eq_zero.1 (Nat.le_zero.1 hlen)]
    exact List.mem_singleton_self _
  | succ fuel ih =>
    intro c pool hnd hsub hlen
    cases c with
    | nil => exact List.mem_cons_self _ _
    | cons x xs =>
      have hx : x ∈ pool := hsub x (List.mem_cons_self x xs)
      have hxs : ∀ y ∈ xs, y ∈ pool.erase x := by
        intro y hy
        have hne : y ≠ x := by
          rintro rfl
          exact (List.nodup_cons.1 hnd).1 hy
        exact (List.mem_erase_of_ne hne).2 (hsub y (List.mem_cons_of_mem x hy))
      have hmem := ih xs (pool.erase x) (List.nodup_cons.1 hnd).2 hxs
        (by simpa using Nat.le_of_succ_le_succ hlen)
      unfold pickLists
      refine List.mem_cons_of_mem _ ?_
      exact List.mem_flatMap.2 ⟨x, hx, List.mem_map.2 ⟨xs, hmem, rfl⟩⟩

theorem isCycle_subset_nodeIds {G : DiGraph} (hwf : WF G) {c : List Int}
    (hc : IsCycleOf G c) : ∀ x ∈ c, x ∈ G.nodeIds := by
  intro x hx
  obtain ⟨i, hi, hget⟩ := List.mem_iff_getElem.1 hx
  have hpos : 0 < c.length := Nat.zero_lt_of_lt hi
  have hmem : (c.get ⟨i, hi⟩, c.get ⟨(i + 1) % c.length, Nat.mod_lt _ hpos⟩)
      ∈ cycEdges c :=
    mem_cycEdges_iff.2 ⟨i, hi, Nat.mod_lt _ hpos, rfl⟩
  have hedge := hc.2.2 _ hmem
  have := (hwf.2.2 _ hedge).1
  simp only [List.get_eq_getElem] at this
  rw [hget] at this
  exact this

theorem simple_cycles_complete {G : DiGraph} (hwf : WF G) {c : List Int}
    (hc : IsCycleOf G c) (hm : minFirst c = true) :
    c ∈ simple_cycles G := by
  unfold simple_cycles
  rw [List.mem_filter]
  constructor
  · have hsub : ∀ x ∈ c, x ∈ G.nodeIds := isCycle_subset_nodeIds hwf hc
    have hsp : c.Subperm G.nodeIds := hc.2.1.subperm hsub
    exact mem_pickLists _ c G.nodeIds hc.2.1 hsub hsp.length_le
  · rw [Bool.and_eq_true]
    exact ⟨decide_eq_true hc, hm⟩

theorem reflTransGen_exists_path {G : DiGraph} {v u : Int}
    (h : Relation.ReflTransGen (EdgeRel G) v u) :
    ∃ p : List Int, p ≠ [] ∧ p.Nodup ∧ List.Chain' (EdgeRel G) p ∧
      p.head? = some v ∧ p.getLast? = some u := by
  induction h using Relation.ReflTransGen.head_induction_on with
  | refl => exact ⟨[u], by simp, List.nodup_singleton u, List.chain'_singleton u,
      rfl, rfl⟩
  | head hstep _ ih =>
    rename_i a c _
    obtain ⟨p, hne, hnd, hch, hhd, hlast⟩ := ih
    by_cases ha : a ∈ p
    · obtain ⟨s, t, rfl⟩ := List.append_of_mem ha
      refine ⟨a :: t, by simp, ?_, ?_, rfl, ?_⟩
      · exact (List.sublist_append_right s (a :: t)).nodup hnd
      · exact List.Chain'.right_of_append hch
      · rw [List.getLast?_append] at hlast
        cases hlx : (a :: t).getLast? with
        | none => exact absurd (List.getLast?_eq_none.1 hlx) (by simp)
        | some x =>
          rw [hlx] at hlast
          simpa using hlast
    · cases p with
      | nil => exact absurd rfl hne
      | cons b t =>
        have hbc : b = c := by
          have : some b = some c := hhd
          injection this
        subst hbc
        refine ⟨a :: b :: t, by simp, ?_, ?_, rfl, ?_⟩
        · exact List.nodup_cons.2 ⟨ha, hnd⟩
        · exact List.Chain.cons hstep hch
        · rw [List.getLast?_cons_cons]
          exact hlast

theorem cycle_through_edge {G : DiGraph} {u v : Int}
    (he : (u, v) ∈ G.edges)
    (hr : Relation.ReflTransGen (EdgeRel G) v u) :
    ∃ c, IsCycleOf G c ∧ (u, v) ∈ cycEdges c := by
  by_cases huv : u = v
  · subst huv
    refine ⟨[u], ⟨by simp, List.nodup_singleton u, ?_⟩, ?_⟩
    · intro e hee
      have : e ∈ [(u, u)] := by
        unfold cycEdges at hee
        rw [List.rotate_singleton] at hee
        exact hee
      rw [List.mem_singleton] at this
      subst this
      exact he
    · show (u, u) ∈ cycEdges [u]
      unfold cycEdges
      rw [List.rotate_singleton]
      exact List.mem_singleton_self _
  · obtain ⟨p, hne, hnd, hch, hhd, hlast⟩ := reflTransGen_exists_path hr
    cases p with
    | nil => exact absurd rfl hne
    | cons b t =>
      have hbv : v = b := by
        have h2 : some b = some v := hhd
        injection h2 with h3
        exact h3.symm
      subst hbv
      cases t with
      | nil =>
        exfalso
        apply huv
        have : some v = some u := hlast
        injection this with h2
        exact h2.symm
      | cons b2 t2 =>
        have hlast2 : (v :: b2 :: t2).getLast (by simp) = u := by
          have := List.getLast?_eq_getLast (v :: b2 :: t2) (by simp)
          rw [this] at hlast
          injection hlast
        have hdecomp : (v :: b2 :: t2).dropLast ++ [u] = v :: b2 :: t2 := by
          rw [← hlast2]
          exact List.dropLast_append_getLast _
        refine ⟨u :: (v :: b2 :: t2).dropLast, ?_, ?_⟩
        · rw [isCycleOf_cons_iff]
          constructor
          · rw [List.nodup_cons]
            constructor
            · intro hcon
              have hnd2 := hdecomp ▸ hnd
              rw [List.nodup_append] at hnd2
              exact hnd2.2.2 hcon (List.mem_singleton_self u)
            · exact (List.dropLast_sublist _).nodup hnd
          · rw [hdecomp]
            exact List.Chain.cons he hch
        · rw [List.dropLast_cons₂]
          have hz : cycEdges (u :: v :: (b2 :: t2).dropLast) =
              List.zip (u :: v :: (b2 :: t2).dropLast)
                ((v :: (b2 :: t2).dropLast) ++ [u]) :=
            cycEdges_cons u _
          rw [hz]
          exact List.mem_cons_self _ _

theorem detect_cycles_eq_nil {db : DB} {l : List Int}
    (h : topologicalSort (build_prereq_graph db) = some l) :
    detect_cycles db = [] := by
  unfold detect_cycles
  simp only [h]

theorem detect_cycles_eq_simple {db : DB}
    (h : topologicalSort (build_prereq_graph db) = none) :
    detect_cycles db = simple_cycles (build_prereq_graph db) := by
  unfold detect_cycles
  simp only [h]

/-- Claim C1: cycle detection is exact — on an acyclic graph the
detector returns the empty list; on a cyclic graph it returns every
elementary cycle (up to rotation of the representative), so its output
covers every edge that participates in at least one cycle. -/
theorem C1_detect_cycles_exact (db : DB) :
    (¬ HasCycle (build_prereq_graph db) → detect_cycles db = []) ∧
    (∀ c : List Int, IsCycleOf (build_prereq_graph db) c →
      ∃ n, c.rotate n ∈ detect_cycles db) ∧
    (∀ u v : Int, (u, v) ∈ (build_prereq_graph db).edges →
      Relation.ReflTransGen (EdgeRel (build_prereq_graph db)) v u →
      ∃ c ∈ detect_cycles db, (u, v) ∈ cycEdges c) := by
  refine ⟨?_, ?_, ?_⟩
  · intro hdag
    have h : (topologicalSort (build_prereq_graph db)).isSome :=
      topologicalSort_isSome hdag
    obtain ⟨l, hl⟩ := Option.isSome_iff_exists.1 h
    exact detect_cycles_eq_nil hl
  · intro c hc
    have hcyc : HasCycle (build_prereq_graph db) := hasCycle_of_isCycleOf hc
    have hnone := hasCycle_topologicalSort_eq_none (WF_build db) hcyc
    rw [detect_cycles_eq_simple hnone]
    obtain ⟨n, hn⟩ := exists_minFirst_rotation hc.1
    exact ⟨n, simple_cycles_complete (WF_build db) (isCycleOf_rotate hc n) hn⟩
  · intro u v he hr
    obtain ⟨c0, hc0, hmem⟩ := cycle_through_edge he hr
    have hcyc : HasCycle (build_prereq_graph db) := hasCycle_of_isCycleOf hc0
    have hnone := hasCycle_topologicalSort_eq_none (WF_build db) hcyc
    rw [detect_cycles_eq_simple hnone]
    obtain ⟨n, hn⟩ := exists_minFirst_rotation hc0.1
    exact ⟨c0.rotate n,
      simple_cycles_complete (WF_build db) (isCycleOf_rotate hc0 n) hn,
      (mem_cycEdges_rotate n).2 hmem⟩

/-- Witness for C1: the chain store yields no cycles, and on the 3-cycle
store the detector returns the cycle (including the edge (1, 2)). -/
theorem C1_witness :
    detect_cycles dbChain = [] ∧
    (∃ n, [(2 : Int), 3, 1].rotate n ∈ detect_cycles dbCyc) ∧
    ∃ c ∈ detect_cycles dbCyc, ((1 : Int), (2 : Int)) ∈ cycEdges c := by
  have hdag : ¬ HasCycle (build_prereq_graph dbChain) :=
    topologicalSort_acyclic (WF_build dbChain)
      (show topologicalSort (build_prereq_graph dbChain) = some [1, 2, 3]
        by decide)
  refine ⟨(C1_detect_cycles_exact dbChain).1 hdag, ?_, ?_⟩
  · exact (C1_detect_cycles_exact dbCyc).2.1 [2, 3, 1] (by decide)
  · exact (C1_detect_cycles_exact dbCyc).2.2 1 2 (by decide)
      (Relation.ReflTransGen.head
        (show ((2 : Int), (3 : Int)) ∈ (build_prereq_graph dbCyc).edges
          by decide)
        (Relation.ReflTransGen.single
          (show ((3 : Int), (1 : Int)) ∈ (build_prereq_graph dbCyc).edges
            by decide)))
